import Mathlib

/-!
Verification of the per-share document store (`Bowl`) of `src/src/soup.ts`.

The TypeScript source is shallowly embedded: JavaScript `Map` objects become
association lists with insertion-order semantics, the stable
`Array.prototype.sort` becomes a stable insertion sort, mutation becomes
explicit state passing, and the impure inputs of `write` (the wall clock
`now()` and the random signature from `signDoc`) become explicit parameters.
JavaScript numbers used here are integer-valued (timestamps, lengths,
indexes) and are embedded as `Int` or `Nat`.

The module `src/utils.ts` is imported by `soup.ts` but is not among the
repository files; the small helpers taken from it (`Cmp`, `arrayCompare`,
`keyComparer`, `deepEqual`, `fakeHash`) are modelled from the spec where it
describes them (lexicographic compare, the overwrite order, `H(content)`).
-/

namespace Soup

/-- Modelled from the spec: the three-valued comparison result `Cmp` from the
missing `utils` module (`LT`, `EQ`, `GT`). -/
inductive Cmp where
  | lt
  | eq
  | gt
deriving DecidableEq, Repr

/-- Modelled from the spec: lexicographic combination of two comparison
results, as `arrayCompare` of the missing `utils` module combines the
elementwise comparisons of two equal-length arrays. -/
def cmpThen (c d : Cmp) : Cmp :=
  match c with
  | Cmp.eq => d
  | c => c

/-- Lexicographic comparison of character lists by code point: the
JavaScript `<` on strings compares code units left to right, a strict
shorter list losing to any extension of it. -/
def charListLtB : List Char → List Char → Bool
  | _, [] => false
  | [], _ :: _ => true
  | c :: cs, d :: ds =>
      if c.toNat < d.toNat then true
      else if d.toNat < c.toNat then false
      else charListLtB cs ds

/-- The JavaScript `<` on strings, over the character lists. -/
def strLtB (a b : String) : Bool :=
  charListLtB a.data b.data

/-- The JavaScript `startsWith` on strings, over the character lists. -/
def strStartsWith (s pre : String) : Bool :=
  List.isPrefixOf pre.data s.data

/-- The JavaScript `<` on integer numbers. -/
def intLtB (a b : Int) : Bool :=
  decide (a < b)

/-- The JavaScript `<` on natural numbers. -/
def natLtB (a b : Nat) : Bool :=
  decide (a < b)

/-- Modelled from the spec: elementwise comparison of two values with the
JavaScript relational operators, as `arrayCompare` and `keyComparer` of the
missing `utils` module compare array elements and key values. -/
def ltCmpB {α : Type} (ltb : α → α → Bool) (a b : α) : Cmp :=
  if ltb a b then Cmp.lt else if ltb b a then Cmp.gt else Cmp.eq

/-- The elementwise comparison at strings. -/
def strCmp (a b : String) : Cmp :=
  ltCmpB strLtB a b

/-- The elementwise comparison at integers. -/
def intCmp (a b : Int) : Cmp :=
  ltCmpB intLtB a b

/-- The elementwise comparison at naturals. -/
def natCmp (a b : Nat) : Cmp :=
  ltCmpB natLtB a b

/-- A document as in `soup.ts` (`interface Doc`). `_localIndex` is optional
there and becomes an `Option`. -/
structure Doc where
  path : String
  timestamp : Int
  author : String
  content : String
  contentHash : String
  contentLength : Nat
  signature : String
  _localIndex : Option Nat
deriving DecidableEq, Repr

/-- A partial doc about to be written (`interface DocToWrite`). -/
structure DocToWrite where
  path : String
  author : String
  content : String
deriving DecidableEq, Repr

/-- An author keypair (`interface AuthorKeypair`). -/
structure AuthorKeypair where
  address : String
  secret : String
deriving DecidableEq, Repr

/-- JavaScript `Map.get`: the value stored at a key, if any. -/
def jsGet {α β : Type} [DecidableEq α] : List (α × β) → α → Option β
  | [], _ => none
  | (k, v) :: rest, k2 => if k = k2 then some v else jsGet rest k2

/-- JavaScript `Map.set`: replace the value in place when the key exists,
otherwise append the new entry (insertion order is preserved). -/
def jsSet {α β : Type} [DecidableEq α] : List (α × β) → α → β → List (α × β)
  | [], k2, v2 => [(k2, v2)]
  | (k, v) :: rest, k2, v2 =>
      if k = k2 then (k2, v2) :: rest else (k, v) :: jsSet rest k2 v2

/-- JavaScript `[...new Set(xs)]`: deduplicate keeping first occurrences. -/
def jsSetDedupAux {α : Type} [DecidableEq α] (seen : List α) : List α → List α
  | [] => []
  | a :: rest =>
      if a ∈ seen then jsSetDedupAux seen rest
      else a :: jsSetDedupAux (seen ++ [a]) rest

/-- JavaScript `[...new Set(xs)]` starting from no seen elements. -/
def jsSetDedup {α : Type} [DecidableEq α] (l : List α) : List α :=
  jsSetDedupAux [] l

/-- Stable insertion of one element: it passes over every element it compares
`gt` to and stops before the first other one, so elements that compare `eq`
to it and were earlier in the list stay before it. -/
def insertStable {α : Type} (cmp : α → α → Cmp) (a : α) : List α → List α
  | [] => [a]
  | y :: ys => if cmp a y = Cmp.gt then y :: insertStable cmp a ys else a :: y :: ys

/-- JavaScript `Array.prototype.sort` with a comparator: modelled as a stable
insertion sort (the JavaScript sort is required to be stable). -/
def stableSort {α : Type} (cmp : α → α → Cmp) : List α → List α
  | [] => []
  | a :: as2 => insertStable cmp a (stableSort cmp as2)

/-- From `soup.ts` line 81: the key of the path-and-author index. -/
def combinePathAndAuthor (doc : Doc) : String :=
  doc.path ++ "|" ++ doc.author

/-- From `soup.ts` line 87: sort by path ASC then timestamp DESC; documents
with equal signatures compare equal outright (there is no signature
tie-break for unequal signatures: the array compared is `[path, -timestamp]`). -/
def docComparePathThenNewestFirst (a b : Doc) : Cmp :=
  if a.signature = b.signature then Cmp.eq
  else cmpThen (strCmp a.path b.path) (intCmp (-a.timestamp) (-b.timestamp))

/-- From `soup.ts` line 95: the overwrite order compares
`[timestamp, signature]` lexicographically. -/
def docCompareForOverwrite (newDoc oldDoc : Doc) : Cmp :=
  cmpThen (intCmp newDoc.timestamp oldDoc.timestamp)
    (strCmp newDoc.signature oldDoc.signature)

/-- From `soup.ts` line 109: the validity check is a stub returning true. -/
def docIsValid (_doc : Doc) : Bool :=
  true

/-- Modelled from the spec: `fakeHash` of the missing `utils` module stands
for the abstract content hash `H(content)`. -/
def fakeHash (content : String) : String :=
  "fakehash:" ++ content

/-- From `soup.ts` line 116 (`enum UpsertResult`). -/
inductive UpsertResult where
  | Obsolete
  | AlreadyHadIt
  | Invalid
  | AcceptedButNotLatest
  | AcceptedAndLatest
deriving DecidableEq, Repr

/-- Whether the result is one of the two accepted (doc was saved) outcomes,
the positive numbers of the enum. -/
def UpsertResult.isAccepted : UpsertResult → Bool
  | UpsertResult.AcceptedButNotLatest => true
  | UpsertResult.AcceptedAndLatest => true
  | _ => false

/-- From `soup.ts` line 127 (`interface WriteEvent`). -/
structure WriteEvent where
  doc : Doc
  isLatest : Bool
  previousDocSameAuthor : Option Doc
  previousLatestDoc : Option Doc
deriving DecidableEq, Repr

/-- The two follower kinds of `soup.ts`. -/
inductive FollowerKind where
  | sync
  | async
deriving DecidableEq, Repr

/-- The follower states of `soup.ts`. -/
inductive FollowerState where
  | running
  | sleeping
  | quitting
deriving DecidableEq, Repr

/-- From `soup.ts` line 143 (`interface Follower`). The callback itself is
not part of the state: deliveries to it are returned as lists of docs by the
operations that would invoke it. -/
structure Follower where
  nextIndex : Nat
  kind : FollowerKind
  state : Option FollowerState
deriving DecidableEq, Repr

/-- The state of a `Bowl` (`soup.ts` line 278): the three indexes, the
highest local index, and the registered followers. The write-event callbacks
are not state; emitted events are returned by `upsert`. -/
structure Bowl where
  highestLocalIndex : Nat
  docWithLocalIndex : List (Nat × Doc)
  docWithPathAndAuthor : List (String × Doc)
  docsByPathNewestFirst : List (String × List Doc)
  followers : List Follower
deriving DecidableEq, Repr

/-- A freshly constructed bowl. -/
def emptyBowl : Bowl :=
  { highestLocalIndex := 0
    docWithLocalIndex := []
    docWithPathAndAuthor := []
    docsByPathNewestFirst := []
    followers := [] }

/-- What one call to `upsert` produces: the returned result, the updated
bowl, and the write event sent to the `onWrite` callbacks (none when the doc
was not saved). -/
structure UpsertOutcome where
  result : UpsertResult
  bowl : Bowl
  event : Option WriteEvent
deriving DecidableEq, Repr

/-- From `soup.ts` line 345: all docs, sorted by the path order when `sort`
is set. -/
def Bowl.getAllDocs (b : Bowl) (sort : Bool) : List Doc :=
  let docs := b.docWithLocalIndex.map Prod.snd
  if sort then stableSort docComparePathThenNewestFirst docs else docs

/-- From `soup.ts` line 353: the element 0 of each per-path array, sorted by
path when `sort` is set (`keyComparer` on the path). -/
def Bowl.getLatestDocs (b : Bowl) (sort : Bool) : List Doc :=
  let docs := b.docsByPathNewestFirst.filterMap (fun pl => pl.2.head?)
  if sort then stableSort (fun a b2 => strCmp a.path b2.path) docs else docs

/-- From `soup.ts` line 364: the per-path array, newest first. -/
def Bowl.getAllDocsAtPath (b : Bowl) (path : String) : Option (List Doc) :=
  jsGet b.docsByPathNewestFirst path

/-- From `soup.ts` line 368: element 0 of the per-path array. -/
def Bowl.getLatestDocAtPath (b : Bowl) (path : String) : Option Doc :=
  (jsGet b.docsByPathNewestFirst path).bind List.head?

/-- The loop of `getDocsSinceLocalIndex`: walk the given local indexes in
order, appending the doc found at each, returning early when the
accumulated length reaches the limit (the length test runs each iteration,
after the optional push, exactly as in the source). -/
def getDocsSinceAux (m : List (Nat × Doc)) (limit : Option Nat) :
    List Nat → List Doc → List Doc
  | [], acc => acc
  | ii :: rest, acc =>
      let acc2 :=
        match jsGet m ii with
        | some doc => acc ++ [doc]
        | none => acc
      match limit with
      | some l => if acc2.length = l then acc2 else getDocsSinceAux m limit rest acc2
      | none => getDocsSinceAux m limit rest acc2

/-- From `soup.ts` line 328: docs with local index from `startAt` to
`highestLocalIndex`, up to `limit` many. -/
def Bowl.getDocsSinceLocalIndex (b : Bowl) (startAt : Nat) (limit : Option Nat) :
    List Doc :=
  getDocsSinceAux b.docWithLocalIndex limit
    (List.range' startAt (b.highestLocalIndex + 1 - startAt)) []

/-- The saving part of `upsert` (`soup.ts` lines 536 to 597), reached when
the doc was not rejected. Mutation of the shared `doc` object is resolved by
stamping `_localIndex` before the doc enters the three indexes (the
comparator never reads `_localIndex`, so sorting after the stamp is
observationally the same as the source order). The reference equality test
`existingDocsSamePath[0] === doc` becomes structural equality against the
freshly stamped doc, whose `_localIndex` no other doc of a bowl built by
upserts carries. -/
def Bowl.upsertAccept (b : Bowl) (doc : Doc) (existingDocSameAuthor : Option Doc) :
    UpsertOutcome :=
  let newIndex := b.highestLocalIndex + 1
  let doc2 : Doc := { doc with _localIndex := some newIndex }
  let existingDocsSamePath := (jsGet b.docsByPathNewestFirst doc.path).getD []
  let sortedDocs :=
    stableSort docComparePathThenNewestFirst (existingDocsSamePath ++ [doc2])
  let isLatest := sortedDocs.head? = some doc2
  let upsertResult :=
    if isLatest then UpsertResult.AcceptedAndLatest
    else UpsertResult.AcceptedButNotLatest
  let previousLatestDoc :=
    if isLatest then sortedDocs.get? 1 else none
  let followers2 := b.followers.map (fun f =>
    match f.kind with
    | FollowerKind.sync => { f with nextIndex := newIndex + 1 }
    | FollowerKind.async =>
        if f.state = some FollowerState.sleeping then
          { f with state := some FollowerState.running }
        else f)
  ⟨upsertResult,
   { highestLocalIndex := newIndex
     docWithLocalIndex := jsSet b.docWithLocalIndex newIndex doc2
     docWithPathAndAuthor :=
       jsSet b.docWithPathAndAuthor (combinePathAndAuthor doc) doc2
     docsByPathNewestFirst := jsSet b.docsByPathNewestFirst doc.path sortedDocs
     followers := followers2 },
   some { doc := doc2
          isLatest := decide isLatest
          previousDocSameAuthor := existingDocSameAuthor
          previousLatestDoc := previousLatestDoc }⟩

/-- From `soup.ts` line 519 (`Bowl.upsert`): validity check, rejection of a
doc that loses (or ties) against the same author at the same path, and
otherwise the saving branch `upsertAccept` above. -/
def Bowl.upsert (b : Bowl) (doc : Doc) : UpsertOutcome :=
  if ¬ docIsValid doc then ⟨UpsertResult.Invalid, b, none⟩ else
  match jsGet b.docWithPathAndAuthor (combinePathAndAuthor doc) with
  | some existing =>
      match docCompareForOverwrite doc existing with
      | Cmp.lt => ⟨UpsertResult.Obsolete, b, none⟩
      | Cmp.eq => ⟨UpsertResult.AlreadyHadIt, b, none⟩
      | Cmp.gt => b.upsertAccept doc (some existing)
  | none => b.upsertAccept doc none

/-- From `soup.ts` line 497 (`Bowl.write`). The wall clock `now()` and the
random signature produced by `signDoc` are impure and become the parameters
`nowMicros` and `sig`; everything else follows the source: the timestamp is
`now()` when the path has no latest doc and otherwise the latest timestamp
plus one. -/
def Bowl.write (b : Bowl) (keypair : AuthorKeypair) (docToWrite : DocToWrite)
    (nowMicros : Int) (sig : String) : UpsertOutcome :=
  let existingDocSamePath := b.getLatestDocAtPath docToWrite.path
  let doc : Doc :=
    { path := docToWrite.path
      timestamp :=
        match existingDocSamePath with
        | none => nowMicros
        | some e => e.timestamp + 1
      author := keypair.address
      content := docToWrite.content
      contentHash := fakeHash docToWrite.content
      contentLength := docToWrite.content.utf8ByteSize
      signature := sig
      _localIndex := none }
  b.upsert doc

/-- What one call to `addFollower` produces: the docs delivered to the
callback before registration returns, the follower as registered, and the
updated bowl. -/
structure AddFollowerOutcome where
  delivered : List Doc
  follower : Follower
  bowl : Bowl
deriving DecidableEq, Repr

/-- From `soup.ts` line 305 (`Bowl.addFollower`). A sync follower is caught
up synchronously with every doc of local index at least `nextIndex` (its
`nextIndex` field is not touched by the loop) and ends in the sleeping
state; an async follower is woken into the running state and will be driven
by `continueAsyncFollower` steps. -/
def Bowl.addFollower (b : Bowl) (f : Follower) : AddFollowerOutcome :=
  match f.kind with
  | FollowerKind.sync =>
      let delivered := b.getDocsSinceLocalIndex f.nextIndex none
      let f2 := { f with state := some FollowerState.sleeping }
      ⟨delivered, f2, { b with followers := b.followers ++ [f2] }⟩
  | FollowerKind.async =>
      let f2 := { f with state := some FollowerState.running }
      ⟨[], f2, { b with followers := b.followers ++ [f2] }⟩

/-- What one invocation of `continueAsyncFollower` does: the docs it awaits
the callback on, the follower as left behind, whether it scheduled itself
again with `setImmediate`, and whether it threw (continuing a sleeping
follower throws in the source). -/
structure AsyncStep where
  follower : Follower
  delivered : List Doc
  reschedules : Bool
  errored : Bool
deriving DecidableEq, Repr

/-- From `soup.ts` line 182 (`continueAsyncFollower`): one invocation of the
self-rescheduling loop body. Note the source never advances
`follower.nextIndex` here, so the batch delivered is computed from the same
`nextIndex` every time. -/
def continueAsyncFollowerStep (f : Follower) (b : Bowl) : AsyncStep :=
  if f.state = some FollowerState.quitting then ⟨f, [], false, false⟩
  else if f.state = some FollowerState.sleeping then ⟨f, [], false, true⟩
  else if b.highestLocalIndex < f.nextIndex then
    ⟨{ f with state := some FollowerState.sleeping }, [], false, false⟩
  else ⟨f, b.getDocsSinceLocalIndex f.nextIndex (some 40), true, false⟩

/-- From `soup.ts` line 231: the two history choices of a query. -/
inductive HistoryKind where
  | latest
  | all
deriving DecidableEq, Repr

/-- From `soup.ts` line 236: the four orderings of a query. -/
inductive OrderByKind where
  | pathASC
  | pathDESC
  | localIndexASC
  | localIndexDESC
deriving DecidableEq, Repr

/-- From `soup.ts` line 239: the `startAt` object of a query. -/
structure StartAt where
  localIndex : Option Nat
  path : Option String
deriving DecidableEq, Repr

/-- From `soup.ts` line 212 (`interface QueryFilter`): each field optional,
absent fields are `none`. -/
structure QueryFilter where
  path : Option String := none
  pathStartsWith : Option String := none
  pathEndsWith : Option String := none
  author : Option String := none
  timestamp : Option Int := none
  timestampGt : Option Int := none
  timestampLt : Option Int := none
  contentLength : Option Nat := none
  contentLengthGt : Option Nat := none
  contentLengthLt : Option Nat := none
deriving DecidableEq, Repr

/-- From `soup.ts` line 225 (`interface Query`): each property optional,
absent properties are `none`. -/
structure Query where
  history : Option HistoryKind := none
  orderBy : Option OrderByKind := none
  startAt : Option StartAt := none
  filter : Option QueryFilter := none
  limit : Option Nat := none
deriving DecidableEq, Repr

/-- From `soup.ts` line 254: the defaults merged under a query. -/
def defaultQuery : Query :=
  { history := some HistoryKind.latest
    orderBy := some OrderByKind.pathASC
    startAt := none
    filter := none
    limit := none }

/-- The first option when present, otherwise the second: how the object
spread `\x7b...defaultQuery, ...query\x7d` resolves each property. -/
def optOr {α : Type} (a b : Option α) : Option α :=
  match a with
  | some v => some v
  | none => b

/-- The object spread `\x7b...defaultQuery, ...query\x7d` at the top of
`queryDocs`: every property present on the query wins over the default. -/
def mergeQuery (q : Query) : Query :=
  { history := optOr q.history defaultQuery.history
    orderBy := optOr q.orderBy defaultQuery.orderBy
    startAt := optOr q.startAt defaultQuery.startAt
    filter := optOr q.filter defaultQuery.filter
    limit := optOr q.limit defaultQuery.limit }

/-- A single optional filter field: absent passes, present must satisfy the
test, as each line of `docMatchesFilter` checks `!== undefined`. -/
def checkOpt {α : Type} (o : Option α) (p : α → Bool) : Bool :=
  match o with
  | none => true
  | some v => p v

/-- From `soup.ts` line 262 (`docMatchesFilter`), reproduced with the
comparisons the source actually performs: `pathEndsWith` tests
`doc.path.startsWith(filter.pathEndsWith)` (line 265), and both
`timestampLt` (line 269) and `contentLengthLt` (line 272) test with `>`
instead of `<`. -/
def docMatchesFilter (doc : Doc) (filter : QueryFilter) : Bool :=
  checkOpt filter.path (fun v => decide (doc.path = v)) &&
  checkOpt filter.pathStartsWith (fun v => strStartsWith doc.path v) &&
  checkOpt filter.pathEndsWith (fun v => strStartsWith doc.path v) &&
  checkOpt filter.author (fun v => decide (doc.author = v)) &&
  checkOpt filter.timestamp (fun v => decide (doc.timestamp = v)) &&
  checkOpt filter.timestampGt (fun v => decide (v < doc.timestamp)) &&
  checkOpt filter.timestampLt (fun v => decide (v < doc.timestamp)) &&
  checkOpt filter.contentLength (fun v => decide (doc.contentLength = v)) &&
  checkOpt filter.contentLengthGt (fun v => decide (v < doc.contentLength)) &&
  checkOpt filter.contentLengthLt (fun v => decide (v < doc.contentLength))

/-- The `keyComparer` on `_localIndex` used for the localIndex orderings.
Modelled from the spec: `keyComparer` compares the two key values with the
JavaScript relational operators, under which a comparison against an absent
value is false both ways, so such pairs compare equal. -/
def docCompareByLocalIndex (a b : Doc) : Cmp :=
  match a._localIndex, b._localIndex with
  | some x, some y => natCmp x y
  | _, _ => Cmp.eq

/-- The four skip-ahead checks of the `queryDocs` loop (`soup.ts` lines
398 to 421): each fires only under its exact `orderBy`, a present `startAt`
and a present field, and skips docs before the start (JavaScript
`doc._localIndex || 0` becomes `getD 0`). -/
def startAtSkips (q : Query) (doc : Doc) : Bool :=
  match q.orderBy, q.startAt with
  | some OrderByKind.pathASC, some sa =>
      checkOpt sa.path (fun p => strLtB doc.path p)
  | some OrderByKind.pathDESC, some sa =>
      checkOpt sa.path (fun p => strLtB p doc.path)
  | some OrderByKind.localIndexASC, some sa =>
      checkOpt sa.localIndex (fun i => decide (doc._localIndex.getD 0 < i))
  | some OrderByKind.localIndexDESC, some sa =>
      checkOpt sa.localIndex (fun i => decide (i < doc._localIndex.getD 0))
  | _, _ => false

/-- The filtering and limiting loop of `queryDocs` (`soup.ts` lines 395 to
431): skip until past `startAt`, drop docs failing the filter, stop once the
accumulated length reaches the limit (tested after each push). -/
def queryDocsLoop (q : Query) : List Doc → List Doc → List Doc
  | [], acc => acc
  | d :: rest, acc =>
      if startAtSkips q d then queryDocsLoop q rest acc
      else if (match q.filter with
               | some f => ! docMatchesFilter d f
               | none => false : Bool) then queryDocsLoop q rest acc
      else
        let acc2 := acc ++ [d]
        match q.limit with
        | some l => if l ≤ acc2.length then acc2 else queryDocsLoop q rest acc2
        | none => queryDocsLoop q rest acc2

/-- From `soup.ts` line 374 (`Bowl.queryDocs`): merge the defaults, pick the
base set, sort when ordering by path or by local index, reverse for the DESC
orderings, then run the loop. -/
def Bowl.queryDocs (b : Bowl) (query : Option Query) : List Doc :=
  let q := mergeQuery (query.getD {})
  let base :=
    if q.history = some HistoryKind.all then b.getAllDocs false
    else b.getLatestDocs false
  let sorted :=
    if q.orderBy = some OrderByKind.pathASC ∨ q.orderBy = some OrderByKind.pathDESC then
      stableSort docComparePathThenNewestFirst base
    else if q.orderBy = some OrderByKind.localIndexASC ∨
        q.orderBy = some OrderByKind.localIndexDESC then
      stableSort docCompareByLocalIndex base
    else base
  let ordered :=
    if q.orderBy = some OrderByKind.pathDESC ∨
        q.orderBy = some OrderByKind.localIndexDESC then
      sorted.reverse
    else sorted
  queryDocsLoop q ordered []

/-- Sorting a list of strings ascending: `paths.sort()` of the source. -/
def sortStrings (l : List String) : List String :=
  stableSort strCmp l

/-- From `soup.ts` line 436 (`Bowl.queryPaths`): without a query (or with
the empty query, the `deepEqual(query, \x7b\x7d)` test) the unique paths are the
keys of the per-path index; with a query they are the deduplicated paths of
`queryDocs`; either way sorted ascending, and reversed only when a provided
query orders by path DESC. -/
def Bowl.queryPaths (b : Bowl) (query : Option Query) : List String :=
  let paths :=
    match query with
    | none => b.docsByPathNewestFirst.map Prod.fst
    | some q =>
        if q = {} then b.docsByPathNewestFirst.map Prod.fst
        else jsSetDedup ((b.queryDocs (some q)).map Doc.path)
  let sorted := sortStrings paths
  match query with
  | some q => if q.orderBy = some OrderByKind.pathDESC then sorted.reverse else sorted
  | none => sorted

/-- A sequence of upserts applied in order, keeping only the bowls. -/
def applyUpserts (b : Bowl) (docs : List Doc) : Bowl :=
  docs.foldl (fun acc d => (acc.upsert d).bowl) b

/-- Well-formedness of one entry of the per-path index: the array is
nonempty and every doc in it carries the path it is filed under. -/
def pathEntryWf (entry : String × List Doc) : Bool :=
  decide (entry.2 ≠ []) && entry.2.all (fun d => decide (d.path = entry.1))

/-- Well-formedness of one entry of the local-index map: the doc carries the
local index it is filed under, which lies between 1 and the given highest
index. -/
def idxEntryWf (highest : Nat) (entry : Nat × Doc) : Bool :=
  decide (entry.2._localIndex = some entry.1) &&
  decide (1 ≤ entry.1) && decide (entry.1 ≤ highest)

/-- The bowl invariants the proofs below draw on, all decidable: both maps
have distinct keys, every per-path entry is well formed, and every
local-index entry is well formed against `highestLocalIndex`. Every bowl
reachable from `emptyBowl` by upserts satisfies this (proved below). -/
def bowlWf (b : Bowl) : Bool :=
  decide (b.docsByPathNewestFirst.map Prod.fst).Nodup &&
  b.docsByPathNewestFirst.all pathEntryWf &&
  decide (b.docWithLocalIndex.map Prod.fst).Nodup &&
  b.docWithLocalIndex.all (idxEntryWf b.highestLocalIndex)

/-- Whether `post` is a suffix of `s`: the relation the filter name
`pathEndsWith` denotes (the suffix-match contract of the spec). -/
def strEndsWith (s post : String) : Bool :=
  List.isSuffixOf post.data s.data

/-- The reading of `queryPaths` that claim C9 states: the sorted
deduplicated list of the paths of the docs `queryDocs` returns, reversed
exactly when the query orders by path DESC. -/
def queryPathsSpec (b : Bowl) (query : Option Query) : List String :=
  let ps := sortStrings (jsSetDedup ((b.queryDocs query).map Doc.path))
  if query.bind Query.orderBy = some OrderByKind.pathDESC then ps.reverse else ps

/-! Lemmas about the elementwise comparison. -/

theorem ltCmpB_lt_iff {α : Type} {ltb : α → α → Bool} {a b : α} :
    ltCmpB ltb a b = Cmp.lt ↔ ltb a b = true := by
  unfold ltCmpB
  cases h1 : ltb a b <;> cases h2 : ltb b a <;> simp [h1, h2]

theorem ltCmpB_gt_iff {α : Type} {ltb : α → α → Bool} {a b : α} :
    ltCmpB ltb a b = Cmp.gt ↔ (ltb a b = false ∧ ltb b a = true) := by
  unfold ltCmpB
  cases h1 : ltb a b <;> cases h2 : ltb b a <;> simp [h1, h2]

theorem ltCmpB_eq_iff {α : Type} {ltb : α → α → Bool} {a b : α} :
    ltCmpB ltb a b = Cmp.eq ↔ (ltb a b = false ∧ ltb b a = false) := by
  unfold ltCmpB
  cases h1 : ltb a b <;> cases h2 : ltb b a <;> simp [h1, h2]

theorem ltCmpB_coh {α : Type} {ltb : α → α → Bool} {a b : α}
    (h : ltCmpB ltb a b = Cmp.gt) : ltCmpB ltb b a = Cmp.lt :=
  ltCmpB_lt_iff.mpr (ltCmpB_gt_iff.mp h).2

theorem ltCmpB_eq_symm {α : Type} {ltb : α → α → Bool} {a b : α}
    (h : ltCmpB ltb a b = Cmp.eq) : ltCmpB ltb b a = Cmp.eq := by
  obtain ⟨h1, h2⟩ := ltCmpB_eq_iff.mp h
  exact ltCmpB_eq_iff.mpr ⟨h2, h1⟩

theorem intLtB_iff {a b : Int} : intLtB a b = true ↔ a < b := by
  unfold intLtB
  exact decide_eq_true_iff

theorem intLtB_false_iff {a b : Int} : intLtB a b = false ↔ ¬ a < b := by
  rw [← Bool.not_eq_true, intLtB_iff]

/-! Order facts for the string comparison. -/

theorem charListLtB_asymm :
    ∀ {x y : List Char}, charListLtB x y = true → charListLtB y x = false
  | _, [], h => by simp [charListLtB] at h
  | [], _ :: _, _ => by simp [charListLtB]
  | c :: cs, d :: ds, h => by
      simp only [charListLtB] at h ⊢
      by_cases h1 : c.toNat < d.toNat
      · simp [h1, Nat.lt_asymm h1]
      · by_cases h2 : d.toNat < c.toNat
        · simp [h1, h2] at h
        · simp only [if_neg h1, if_neg h2] at h
          simp [h1, h2, charListLtB_asymm h]

theorem charListLtB_total :
    ∀ {x y : List Char}, charListLtB x y = false → charListLtB y x = true ∨ x = y
  | [], [], _ => Or.inr rfl
  | _ :: _, [], _ => Or.inl (by simp [charListLtB])
  | [], _ :: _, h => by simp [charListLtB] at h
  | c :: cs, d :: ds, h => by
      simp only [charListLtB] at h ⊢
      by_cases h1 : c.toNat < d.toNat
      · simp [h1] at h
      · by_cases h2 : d.toNat < c.toNat
        · left; simp [h2]
        · simp only [if_neg h1, if_neg h2] at h
          have hcd : c = d :=
            Char.ext (UInt32.ext (Nat.le_antisymm (Nat.not_lt.mp h2) (Nat.not_lt.mp h1)))
          rcases charListLtB_total h with h3 | h3
          · left; simp [Nat.lt_irrefl, h3, hcd]
          · right; rw [hcd, h3]

theorem charListLtB_trans :
    ∀ {x y z : List Char}, charListLtB x y = true → charListLtB y z = true →
      charListLtB x z = true
  | _, _, [], _, h2 => by simp [charListLtB] at h2
  | _, [], _ :: _, h1, _ => by simp [charListLtB] at h1
  | [], _ :: _, _ :: _, _, _ => by simp [charListLtB]
  | c :: cs, d :: ds, e :: es, h1, h2 => by
      simp only [charListLtB] at h1 h2 ⊢
      by_cases hcd : c.toNat < d.toNat
      · by_cases hde : d.toNat < e.toNat
        · simp [Nat.lt_trans hcd hde]
        · by_cases hed : e.toNat < d.toNat
          · simp [hde, hed] at h2
          · have : d.toNat = e.toNat := Nat.le_antisymm (Nat.not_lt.mp hed) (Nat.not_lt.mp hde)
            simp [this ▸ hcd]
      · by_cases hdc : d.toNat < c.toNat
        · simp [hcd, hdc] at h1
        · have hcd2 : c.toNat = d.toNat :=
            Nat.le_antisymm (Nat.not_lt.mp hdc) (Nat.not_lt.mp hcd)
          simp only [if_neg hcd, if_neg hdc] at h1
          by_cases hde : d.toNat < e.toNat
          · simp [hcd2 ▸ hde]
          · by_cases hed : e.toNat < d.toNat
            · simp [hde, hed] at h2
            · simp only [if_neg hde, if_neg hed] at h2
              have hce : ¬ c.toNat < e.toNat := hcd2 ▸ hde
              have hec : ¬ e.toNat < c.toNat := hcd2 ▸ hed
              simp [hce, hec, charListLtB_trans h1 h2]

theorem strLtB_asymm {a b : String} (h : strLtB a b = true) : strLtB b a = false :=
  charListLtB_asymm h

theorem strLtB_antisymm {a b : String} (h1 : strLtB a b = false)
    (h2 : strLtB b a = false) : a = b := by
  unfold strLtB at h1 h2
  rcases charListLtB_total h1 with h3 | h3
  · rw [h2] at h3
    cases h3
  · exact congrArg String.mk h3

theorem strLtB_trans {a b c : String} (h1 : strLtB a b = true)
    (h2 : strLtB b c = true) : strLtB a c = true :=
  charListLtB_trans h1 h2

theorem strLtB_le_trans {a b c : String} (h1 : strLtB b a = false)
    (h2 : strLtB c b = false) : strLtB c a = false := by
  unfold strLtB at h1 h2 ⊢
  cases h3 : charListLtB c.data a.data with
  | false => rfl
  | true =>
      rcases charListLtB_total h1 with h4 | h4
      · rcases charListLtB_total h2 with h5 | h5
        · have h6 := charListLtB_asymm (charListLtB_trans h4 h5)
          rw [h3] at h6
          cases h6
        · rw [h5] at h3
          rw [h3] at h1
          cases h1
      · rw [← h4] at h3
        rw [h3] at h2
        cases h2

/-! Lemmas about the JavaScript map and set models. -/

theorem jsGet_mem {α β : Type} [DecidableEq α] {m : List (α × β)} {k : α} {v : β}
    (h : jsGet m k = some v) : (k, v) ∈ m := by
  induction m with
  | nil => simp [jsGet] at h
  | cons kv rest ih =>
      obtain ⟨k1, v1⟩ := kv
      by_cases hk : k1 = k
      · subst hk
        simp only [jsGet, if_pos rfl] at h
        cases h
        exact List.mem_cons_self _ _
      · simp only [jsGet, if_neg hk] at h
        exact List.mem_cons_of_mem _ (ih h)

theorem jsGet_of_mem {α β : Type} [DecidableEq α] {m : List (α × β)} {k : α} {v : β}
    (hm : (k, v) ∈ m) (hnd : (m.map Prod.fst).Nodup) : jsGet m k = some v := by
  induction m with
  | nil => simp at hm
  | cons kv rest ih =>
      obtain ⟨k1, v1⟩ := kv
      simp only [List.map_cons, List.nodup_cons] at hnd
      rcases List.mem_cons.mp hm with h | h
      · injection h with h1 h2
        subst h1
        subst h2
        simp [jsGet]
      · have hk : k1 ≠ k := by
          intro he
          exact hnd.1 (he ▸ (List.mem_map.mpr ⟨(k, v), h, rfl⟩))
        simp only [jsGet, if_neg hk]
        exact ih h hnd.2

theorem jsGet_jsSet_self {α β : Type} [DecidableEq α] (m : List (α × β)) (k : α) (v : β) :
    jsGet (jsSet m k v) k = some v := by
  induction m with
  | nil => simp [jsSet, jsGet]
  | cons kv rest ih =>
      obtain ⟨k1, v1⟩ := kv
      by_cases h : k1 = k
      · simp [jsSet, if_pos h, jsGet]
      · simp [jsSet, if_neg h, jsGet, h, ih]

theorem jsSetDedupAux_eq_self {α : Type} [DecidableEq α] {l : List α} (seen : List α)
    (hd : l.Nodup) (hs : ∀ a ∈ l, a ∉ seen) : jsSetDedupAux seen l = l := by
  induction l generalizing seen with
  | nil => rfl
  | cons a rest ih =>
      have ha : a ∉ seen := hs a (List.mem_cons_self a rest)
      simp only [List.nodup_cons] at hd
      simp only [jsSetDedupAux, if_neg ha]
      congr 1
      refine ih (seen ++ [a]) hd.2 ?_
      intro x hx
      simp only [List.mem_append, List.mem_singleton]
      rintro (hxs | rfl)
      · exact hs x (List.mem_cons_of_mem a hx) hxs
      · exact hd.1 hx

theorem jsSetDedup_eq_self {α : Type} [DecidableEq α] {l : List α} (hd : l.Nodup) :
    jsSetDedup l = l :=
  jsSetDedupAux_eq_self [] hd (by simp)

/-! Lemmas about the stable sort. -/

theorem insertStable_perm {α : Type} (cmp : α → α → Cmp) (a : α) (l : List α) :
    List.Perm (insertStable cmp a l) (a :: l) := by
  induction l with
  | nil => simp [insertStable]
  | cons y ys ih =>
      by_cases h : cmp a y = Cmp.gt
      · simp only [insertStable, if_pos h]
        exact (ih.cons y).trans (List.Perm.swap a y ys)
      · simp [insertStable, if_neg h]

theorem stableSort_perm {α : Type} (cmp : α → α → Cmp) (l : List α) :
    List.Perm (stableSort cmp l) l := by
  induction l with
  | nil => exact List.Perm.refl []
  | cons a as ih => exact (insertStable_perm cmp a _).trans (ih.cons a)

theorem insertStable_head? {α : Type} (cmp : α → α → Cmp) (a : α) (l : List α) :
    (insertStable cmp a l).head? = some a ∨ (insertStable cmp a l).head? = l.head? := by
  cases l with
  | nil => left; rfl
  | cons y ys =>
      by_cases h : cmp a y = Cmp.gt
      · right; simp [insertStable, if_pos h]
      · left; simp [insertStable, if_neg h]

theorem chain'_insertStable {α : Type} {cmp : α → α → Cmp}
    (coh : ∀ x y, cmp x y = Cmp.gt → cmp y x = Cmp.lt) (a : α) {l : List α}
    (hl : List.Chain' (fun x y => cmp x y ≠ Cmp.gt) l) :
    List.Chain' (fun x y => cmp x y ≠ Cmp.gt) (insertStable cmp a l) := by
  induction l with
  | nil => simp [insertStable]
  | cons y ys ih =>
      rw [List.chain'_cons'] at hl
      by_cases h : cmp a y = Cmp.gt
      · simp only [insertStable, if_pos h]
        rw [List.chain'_cons']
        refine ⟨?_, ih hl.2⟩
        intro z hz
        rcases insertStable_head? cmp a ys with h2 | h2
        · rw [h2, Option.mem_def, Option.some.injEq] at hz
          subst hz
          simp [coh a y h]
        · rw [h2] at hz
          exact hl.1 z hz
      · simp only [insertStable, if_neg h]
        rw [List.chain'_cons']
        refine ⟨?_, List.chain'_cons'.mpr hl⟩
        intro z hz
        simp only [List.head?_cons, Option.mem_def, Option.some.injEq] at hz
        subst hz
        exact h

theorem chain'_stableSort {α : Type} {cmp : α → α → Cmp}
    (coh : ∀ x y, cmp x y = Cmp.gt → cmp y x = Cmp.lt) (l : List α) :
    List.Chain' (fun x y => cmp x y ≠ Cmp.gt) (stableSort cmp l) := by
  induction l with
  | nil => simp [stableSort]
  | cons a as ih => exact chain'_insertStable coh a ih

/-! Coherence of the document comparators. -/

theorem cmpThen_eq_gt {c d : Cmp} :
    cmpThen c d = Cmp.gt ↔ (c = Cmp.gt ∨ (c = Cmp.eq ∧ d = Cmp.gt)) := by
  cases c <;> simp [cmpThen]

theorem cmpThen_eq_lt {c d : Cmp} :
    cmpThen c d = Cmp.lt ↔ (c = Cmp.lt ∨ (c = Cmp.eq ∧ d = Cmp.lt)) := by
  cases c <;> simp [cmpThen]

theorem docCompare_coh (a b : Doc)
    (h : docComparePathThenNewestFirst a b = Cmp.gt) :
    docComparePathThenNewestFirst b a = Cmp.lt := by
  unfold docComparePathThenNewestFirst at h ⊢
  by_cases hs : a.signature = b.signature
  · rw [if_pos hs] at h
    exact absurd h (by simp)
  · rw [if_neg hs] at h
    rw [if_neg (fun he => hs he.symm)]
    rcases cmpThen_eq_gt.mp h with h1 | ⟨h1, h2⟩
    · exact cmpThen_eq_lt.mpr (Or.inl (ltCmpB_coh h1))
    · exact cmpThen_eq_lt.mpr (Or.inr ⟨ltCmpB_eq_symm h1, ltCmpB_coh h2⟩)

theorem strCmp_coh (a b : String) (h : strCmp a b = Cmp.gt) : strCmp b a = Cmp.lt :=
  ltCmpB_coh h

theorem docCompareByLocalIndex_coh (a b : Doc)
    (h : docCompareByLocalIndex a b = Cmp.gt) : docCompareByLocalIndex b a = Cmp.lt := by
  unfold docCompareByLocalIndex at h ⊢
  cases ha : a._localIndex <;> cases hb : b._localIndex <;> simp [ha, hb] at h ⊢
  · exact ltCmpB_coh h

/-! Sorted strings. -/

theorem strCmp_ne_gt_iff {a b : String} :
    strCmp a b ≠ Cmp.gt ↔ strLtB b a = false := by
  unfold strCmp
  constructor
  · intro h
    cases hba : strLtB b a with
    | false => rfl
    | true => exact absurd (ltCmpB_gt_iff.mpr ⟨strLtB_asymm hba, hba⟩) h
  · intro h hc
    rw [(ltCmpB_gt_iff.mp hc).2] at h
    cases h

theorem sortStrings_pairwise (l : List String) :
    List.Pairwise (fun a b => strCmp a b ≠ Cmp.gt) (sortStrings l) := by
  haveI : IsTrans String (fun a b => strCmp a b ≠ Cmp.gt) := by
    refine ⟨fun a b c hab hbc => ?_⟩
    rw [strCmp_ne_gt_iff] at hab hbc ⊢
    exact strLtB_le_trans hab hbc
  have h := chain'_stableSort strCmp_coh l
  exact List.chain'_iff_pairwise.mp h

theorem sortStrings_congr_perm {l1 l2 : List String} (h : List.Perm l1 l2) :
    sortStrings l1 = sortStrings l2 := by
  haveI : IsAntisymm String (fun a b => strCmp a b ≠ Cmp.gt) := by
    refine ⟨fun a b hab hba => ?_⟩
    rw [strCmp_ne_gt_iff] at hab hba
    exact strLtB_antisymm hba hab
  exact List.eq_of_perm_of_sorted
    ((stableSort_perm strCmp l1).trans (h.trans (stableSort_perm strCmp l2).symm))
    (sortStrings_pairwise l1) (sortStrings_pairwise l2)

/-! The catch-up loop. -/

theorem getDocsSinceAux_none (m : List (Nat × Doc)) (l : List Nat) (acc : List Doc) :
    getDocsSinceAux m none l acc = acc ++ l.filterMap (fun ii => jsGet m ii) := by
  induction l generalizing acc with
  | nil => simp [getDocsSinceAux]
  | cons ii rest ih =>
      cases h : jsGet m ii with
      | none => simp [getDocsSinceAux, h, ih]
      | some doc => simp [getDocsSinceAux, h, ih]

theorem getDocsSinceLocalIndex_none (b : Bowl) (startAt : Nat) :
    b.getDocsSinceLocalIndex startAt none =
      (List.range' startAt (b.highestLocalIndex + 1 - startAt)).filterMap
        (fun ii => jsGet b.docWithLocalIndex ii) := by
  unfold Bowl.getDocsSinceLocalIndex
  rw [getDocsSinceAux_none]
  rfl

/-! Structural facts about upsert. -/

theorem upsert_eq_none {b : Bowl} {d : Doc}
    (hj : jsGet b.docWithPathAndAuthor (combinePathAndAuthor d) = none) :
    b.upsert d = b.upsertAccept d none := by
  unfold Bowl.upsert
  simp [docIsValid, hj]

theorem upsert_eq_lt {b : Bowl} {d e : Doc}
    (hj : jsGet b.docWithPathAndAuthor (combinePathAndAuthor d) = some e)
    (hc : docCompareForOverwrite d e = Cmp.lt) :
    b.upsert d = ⟨UpsertResult.Obsolete, b, none⟩ := by
  unfold Bowl.upsert
  simp [docIsValid, hj, hc]

theorem upsert_eq_eq {b : Bowl} {d e : Doc}
    (hj : jsGet b.docWithPathAndAuthor (combinePathAndAuthor d) = some e)
    (hc : docCompareForOverwrite d e = Cmp.eq) :
    b.upsert d = ⟨UpsertResult.AlreadyHadIt, b, none⟩ := by
  unfold Bowl.upsert
  simp [docIsValid, hj, hc]

theorem upsert_eq_gt {b : Bowl} {d e : Doc}
    (hj : jsGet b.docWithPathAndAuthor (combinePathAndAuthor d) = some e)
    (hc : docCompareForOverwrite d e = Cmp.gt) :
    b.upsert d = b.upsertAccept d (some e) := by
  unfold Bowl.upsert
  simp [docIsValid, hj, hc]

theorem upsertAccept_highest (b : Bowl) (d : Doc) (e : Option Doc) :
    (b.upsertAccept d e).bowl.highestLocalIndex = b.highestLocalIndex + 1 :=
  rfl

theorem upsertAccept_docWithLocalIndex (b : Bowl) (d : Doc) (e : Option Doc) :
    (b.upsertAccept d e).bowl.docWithLocalIndex =
      jsSet b.docWithLocalIndex (b.highestLocalIndex + 1)
        { d with _localIndex := some (b.highestLocalIndex + 1) } :=
  rfl

theorem upsertAccept_docsByPath (b : Bowl) (d : Doc) (e : Option Doc) :
    (b.upsertAccept d e).bowl.docsByPathNewestFirst =
      jsSet b.docsByPathNewestFirst d.path
        (stableSort docComparePathThenNewestFirst
          (((jsGet b.docsByPathNewestFirst d.path).getD []) ++
            [{ d with _localIndex := some (b.highestLocalIndex + 1) }])) :=
  rfl

theorem upsertAccept_result (b : Bowl) (d : Doc) (e : Option Doc) :
    (b.upsertAccept d e).result = UpsertResult.AcceptedAndLatest ∨
    (b.upsertAccept d e).result = UpsertResult.AcceptedButNotLatest := by
  simp only [Bowl.upsertAccept]
  split
  · left; rfl
  · right; rfl

theorem upsert_accepted {b : Bowl} {d : Doc}
    (h : ((b.upsert d).result).isAccepted = true) :
    (b.upsert d).bowl.highestLocalIndex = b.highestLocalIndex + 1 ∧
    jsGet (b.upsert d).bowl.docWithLocalIndex (b.highestLocalIndex + 1) =
      some { d with _localIndex := some (b.highestLocalIndex + 1) } := by
  cases hj : jsGet b.docWithPathAndAuthor (combinePathAndAuthor d) with
  | none =>
      rw [upsert_eq_none hj]
      refine ⟨upsertAccept_highest b d none, ?_⟩
      rw [upsertAccept_docWithLocalIndex b d none]
      exact jsGet_jsSet_self ..
  | some e =>
      cases hc : docCompareForOverwrite d e with
      | lt => rw [upsert_eq_lt hj hc] at h; cases h
      | eq => rw [upsert_eq_eq hj hc] at h; cases h
      | gt =>
          rw [upsert_eq_gt hj hc]
          refine ⟨upsertAccept_highest b d (some e), ?_⟩
          rw [upsertAccept_docWithLocalIndex b d (some e)]
          exact jsGet_jsSet_self ..

theorem upsert_not_accepted_frame {b : Bowl} {d : Doc}
    (h : ((b.upsert d).result).isAccepted = false) :
    (b.upsert d).bowl = b ∧ (b.upsert d).event = none := by
  cases hj : jsGet b.docWithPathAndAuthor (combinePathAndAuthor d) with
  | none =>
      rw [upsert_eq_none hj] at h
      rcases upsertAccept_result b d none with h2 | h2 <;>
        rw [h2] at h <;> cases h
  | some e =>
      cases hc : docCompareForOverwrite d e with
      | lt => rw [upsert_eq_lt hj hc]; exact ⟨rfl, rfl⟩
      | eq => rw [upsert_eq_eq hj hc]; exact ⟨rfl, rfl⟩
      | gt =>
          rw [upsert_eq_gt hj hc] at h
          rcases upsertAccept_result b d (some e) with h2 | h2 <;>
            rw [h2] at h <;> cases h

theorem upsert_highest_le (b : Bowl) (d : Doc) :
    b.highestLocalIndex ≤ (b.upsert d).bowl.highestLocalIndex := by
  cases h : ((b.upsert d).result).isAccepted with
  | false => rw [(upsert_not_accepted_frame h).1]
  | true => rw [(upsert_accepted h).1]; exact Nat.le_succ _

theorem applyUpserts_highest_le (b : Bowl) (ds : List Doc) :
    b.highestLocalIndex ≤ (applyUpserts b ds).highestLocalIndex := by
  induction ds generalizing b with
  | nil => exact Nat.le_refl _
  | cons d rest ih =>
      exact Nat.le_trans (upsert_highest_le b d) (ih (b.upsert d).bowl)

theorem docCompareForOverwrite_lt_iff {d e : Doc} :
    docCompareForOverwrite d e = Cmp.lt ↔
      (d.timestamp < e.timestamp ∨
        (d.timestamp = e.timestamp ∧ strLtB d.signature e.signature = true)) := by
  unfold docCompareForOverwrite intCmp strCmp
  rw [cmpThen_eq_lt, ltCmpB_lt_iff, ltCmpB_eq_iff, ltCmpB_lt_iff,
    intLtB_iff, intLtB_false_iff, intLtB_false_iff]
  constructor
  · rintro (h | ⟨⟨h1, h2⟩, h3⟩)
    · exact Or.inl h
    · exact Or.inr ⟨le_antisymm (not_lt.mp h2) (not_lt.mp h1), h3⟩
  · rintro (h | ⟨h1, h2⟩)
    · exact Or.inl h
    · exact Or.inr ⟨⟨fun hc => absurd hc (h1 ▸ lt_irrefl _),
        fun hc => absurd hc (h1 ▸ lt_irrefl _)⟩, h2⟩

/-! Claim C7: local indexes are assigned strictly increasing, starting at 1. -/

/-- C7. For every sequence of upserts on one bowl, the `_localIndex` values
assigned to stored documents form a strictly increasing sequence starting
at 1 (a fresh bowl has `highestLocalIndex = 0`), each stored upsert
assigning exactly the next integer `highestLocalIndex + 1` and stamping it
on the stored doc; for any two accepted upserts, the first at `b1` and the
second later (after any further sequence `ds`), the second assigned index is
strictly greater than the first. -/
theorem upsert_localIndex_monotonic (b1 : Bowl) (d1 d2 : Doc) (ds : List Doc)
    (h1 : ((b1.upsert d1).result).isAccepted = true)
    (h2 : (((applyUpserts (b1.upsert d1).bowl ds).upsert d2).result).isAccepted = true) :
    emptyBowl.highestLocalIndex = 0 ∧
    (b1.upsert d1).bowl.highestLocalIndex = b1.highestLocalIndex + 1 ∧
    jsGet (b1.upsert d1).bowl.docWithLocalIndex (b1.highestLocalIndex + 1) =
      some { d1 with _localIndex := some (b1.highestLocalIndex + 1) } ∧
    ((applyUpserts (b1.upsert d1).bowl ds).upsert d2).bowl.highestLocalIndex =
      (applyUpserts (b1.upsert d1).bowl ds).highestLocalIndex + 1 ∧
    jsGet ((applyUpserts (b1.upsert d1).bowl ds).upsert d2).bowl.docWithLocalIndex
        ((applyUpserts (b1.upsert d1).bowl ds).highestLocalIndex + 1) =
      some { d2 with
        _localIndex := some ((applyUpserts (b1.upsert d1).bowl ds).highestLocalIndex + 1) } ∧
    b1.highestLocalIndex + 1 <
      (applyUpserts (b1.upsert d1).bowl ds).highestLocalIndex + 1 := by
  obtain ⟨ha1, ha2⟩ := upsert_accepted h1
  obtain ⟨hb1, hb2⟩ := upsert_accepted h2
  have hle := applyUpserts_highest_le (b1.upsert d1).bowl ds
  rw [ha1] at hle
  exact ⟨rfl, ha1, ha2, hb1, hb2, Nat.succ_lt_succ (Nat.lt_of_lt_of_le (Nat.lt_succ_self _)
    (Nat.le_trans (Nat.le_refl _) hle))⟩

/-- A concrete doc used by the C7 witness. -/
def docW1 : Doc :=
  ⟨"/w1", 100, "@w", "x", "h", 1, "s1", none⟩

/-- A concrete doc used by the C7 witness. -/
def docW2 : Doc :=
  ⟨"/w2", 100, "@w", "x", "h", 1, "s2", none⟩

/-- A concrete doc used by the C7 witness. -/
def docW3 : Doc :=
  ⟨"/w3", 100, "@w", "x", "h", 1, "s3", none⟩

/-- Witness for C7 at a concrete three-upsert run from the empty bowl. -/
theorem upsert_localIndex_monotonic_witness :
    emptyBowl.highestLocalIndex + 1 <
      (applyUpserts (emptyBowl.upsert docW1).bowl [docW2]).highestLocalIndex + 1 :=
  (upsert_localIndex_monotonic emptyBowl docW1 docW3 [docW2]
    (by decide) (by decide)).2.2.2.2.2

/-! Claim C10: the validity check is a stub, so upsert never returns Invalid. -/

/-- C10. The document validity check accepts every document (it is a stub
returning true), so for every bowl and every input document `upsert` never
returns `Invalid`: that branch is unreachable. -/
theorem upsert_never_invalid (b : Bowl) (d : Doc) :
    (b.upsert d).result ≠ UpsertResult.Invalid ∧ docIsValid d = true := by
  refine ⟨?_, rfl⟩
  cases hj : jsGet b.docWithPathAndAuthor (combinePathAndAuthor d) with
  | none =>
      rw [upsert_eq_none hj]
      rcases upsertAccept_result b d none with h | h <;> rw [h] <;> simp
  | some e =>
      cases hc : docCompareForOverwrite d e with
      | lt => rw [upsert_eq_lt hj hc]; simp
      | eq => rw [upsert_eq_eq hj hc]; simp
      | gt =>
          rw [upsert_eq_gt hj hc]
          rcases upsertAccept_result b d (some e) with h | h <;> rw [h] <;> simp

/-! Claim C8: rejected upserts leave the bowl untouched, and Obsolete is
returned exactly when the same author holds a strictly newer doc at the
path. -/

/-- C8. If `upsert` returns `Obsolete`, `AlreadyHadIt` or `Invalid`, the
bowl is unchanged (all three indexes, `highestLocalIndex` and the follower
list are exactly as before) and no write event is emitted; and the result is
`Obsolete` exactly when a document by the same author at the same path
exists whose `(timestamp, signature)` overwrite key is strictly higher than
the incoming one. -/
theorem upsert_rejection_frame (b : Bowl) (d : Doc) :
    (((b.upsert d).result = UpsertResult.Obsolete ∨
      (b.upsert d).result = UpsertResult.AlreadyHadIt ∨
      (b.upsert d).result = UpsertResult.Invalid) →
        (b.upsert d).bowl = b ∧ (b.upsert d).event = none) ∧
    ((b.upsert d).result = UpsertResult.Obsolete ↔
      ∃ e, jsGet b.docWithPathAndAuthor (combinePathAndAuthor d) = some e ∧
        (d.timestamp < e.timestamp ∨
          (d.timestamp = e.timestamp ∧ strLtB d.signature e.signature = true))) := by
  cases hj : jsGet b.docWithPathAndAuthor (combinePathAndAuthor d) with
  | none =>
      rw [upsert_eq_none hj]
      constructor
      · rintro (h | h | h) <;>
          (rcases upsertAccept_result b d none with h2 | h2 <;> rw [h2] at h <;> cases h)
      · constructor
        · intro h
          rcases upsertAccept_result b d none with h2 | h2 <;> rw [h2] at h <;> cases h
        · rintro ⟨e, he, _⟩
          cases he
  | some e =>
      cases hc : docCompareForOverwrite d e with
      | lt =>
          rw [upsert_eq_lt hj hc]
          refine ⟨fun _ => ⟨rfl, rfl⟩, ?_⟩
          constructor
          · intro _
            exact ⟨e, rfl, docCompareForOverwrite_lt_iff.mp hc⟩
          · intro _
            rfl
      | eq =>
          rw [upsert_eq_eq hj hc]
          constructor
          · exact fun _ => ⟨rfl, rfl⟩
          · constructor
            · intro h
              cases h
            · rintro ⟨e2, he2, hlt⟩
              injection he2 with he2
              subst he2
              rw [docCompareForOverwrite_lt_iff.mpr hlt] at hc
              cases hc
      | gt =>
          rw [upsert_eq_gt hj hc]
          constructor
          · rintro (h | h | h) <;>
              (rcases upsertAccept_result b d (some e) with h2 | h2 <;> rw [h2] at h <;> cases h)
          · constructor
            · intro h
              rcases upsertAccept_result b d (some e) with h2 | h2 <;> rw [h2] at h <;> cases h
            · rintro ⟨e2, he2, hlt⟩
              injection he2 with he2
              subst he2
              rw [docCompareForOverwrite_lt_iff.mpr hlt] at hc
              cases hc

/-! Claim C1 (code bug): the displaced same-author doc is not removed. -/

/-- Author A writes path /a, first version. -/
def docA1 : Doc :=
  ⟨"/a", 100, "@a", "x", "h1", 1, "sig1", none⟩

/-- Author A writes path /a again, newer timestamp. -/
def docA2 : Doc :=
  ⟨"/a", 200, "@a", "y", "h2", 1, "sig2", none⟩

/-- The bowl after the first write of /a. -/
def bowlA1 : Bowl :=
  (emptyBowl.upsert docA1).bowl

/-- The bowl after author A has written /a twice. -/
def bowlA2 : Bowl :=
  (bowlA1.upsert docA2).bowl

/-- C1 fails on the code: when author A writes the same path twice, the
second upsert is accepted as latest but the displaced doc stays in the
local-index map and in the per-path list, so getAllDocs returns two docs
for the one (path, author) pair instead of one. -/
theorem upsert_retains_displaced_doc :
    (bowlA1.upsert docA2).result = UpsertResult.AcceptedAndLatest ∧
    (bowlA2.getAllDocs true).map (fun d => (d.path, d.author)) =
      [("/a", "@a"), ("/a", "@a")] ∧
    (bowlA2.getAllDocs true).length = 2 ∧
    jsGet bowlA2.docWithLocalIndex 1 = some { docA1 with _localIndex := some 1 } ∧
    (bowlA2.getAllDocsAtPath "/a").map List.length = some 2 := by
  decide

/-! Claim C2 counterexample: the path order has no signature tie-break. -/

/-- Author A writes /p at t = 100. -/
def docPA : Doc :=
  ⟨"/p", 100, "@A", "x", "hA", 1, "sigA", none⟩

/-- Author B writes /p at t = 100 with a lexicographically greater
signature. -/
def docPB : Doc :=
  ⟨"/p", 100, "@B", "y", "hB", 1, "sigB", none⟩

/-- The bowl holding both /p docs, A upserted first. -/
def bowlP : Bowl :=
  ((emptyBowl.upsert docPA).bowl.upsert docPB).bowl

/-- C2 fails as stated: both docs at /p are upserted with equal timestamps
and B carries the lexicographically greater signature, yet
getLatestDocAtPath returns the doc of author A (the comparator returns eq
for the tied pair, and the stable sort keeps the first-inserted doc in
front). -/
theorem getLatestDocAtPath_ignores_signature :
    (((emptyBowl.upsert docPA).bowl.upsert docPB).result).isAccepted = true ∧
    (bowlP.getAllDocs true).length = 2 ∧
    strLtB docPA.signature docPB.signature = true ∧
    docPA.timestamp = docPB.timestamp ∧
    (bowlP.getLatestDocAtPath "/p").map Doc.author = some "@A" ∧
    docPB.author = "@B" ∧ ("@A" : String) ≠ "@B" := by
  decide

/-! Claim C2 amended: the per-path order really is path ASC, timestamp DESC,
with no signature tie-break; tied docs keep insertion order. -/

theorem jsGet_jsSet_ne {α β : Type} [DecidableEq α] (m : List (α × β)) {k k2 : α}
    (v : β) (h : k2 ≠ k) : jsGet (jsSet m k v) k2 = jsGet m k2 := by
  induction m with
  | nil =>
      have h2 : ¬ k = k2 := fun he => h he.symm
      simp [jsSet, jsGet, h2]
  | cons kv rest ih =>
      obtain ⟨k1, v1⟩ := kv
      have h2 : ¬ k = k2 := fun he => h he.symm
      by_cases hk : k1 = k
      · subst hk
        simp only [jsSet, if_pos rfl, jsGet]
        rw [if_neg h2, if_neg h2]
      · simp only [jsSet, if_neg hk, jsGet]
        by_cases h2 : k1 = k2
        · rw [if_pos h2, if_pos h2]
        · rw [if_neg h2, if_neg h2]
          exact ih

theorem stableSort_append_head {α : Type} {cmp : α → α → Cmp}
    (coh : ∀ x y, cmp x y = Cmp.gt → cmp y x = Cmp.lt)
    {e : α} {rest : List α}
    (hs : List.Pairwise (fun x y => cmp x y ≠ Cmp.gt) (e :: rest))
    {x : α} (hx : cmp x e ≠ Cmp.lt) :
    (stableSort cmp ((e :: rest) ++ [x])).head? = some e := by
  show (insertStable cmp e (stableSort cmp (rest ++ [x]))).head? = some e
  cases hM : stableSort cmp (rest ++ [x]) with
  | nil => simp [insertStable]
  | cons m0 ms =>
      by_cases hgt : cmp e m0 = Cmp.gt
      · exfalso
        have hm0 : m0 ∈ rest ++ [x] := by
          have hmem : m0 ∈ stableSort cmp (rest ++ [x]) := by
            rw [hM]
            exact List.mem_cons_self m0 ms
          exact (stableSort_perm cmp (rest ++ [x])).mem_iff.mp hmem
        rcases List.mem_append.mp hm0 with h | h
        · exact (List.pairwise_cons.mp hs).1 m0 h hgt
        · rw [List.mem_singleton] at h
          subst h
          exact hx (coh e m0 hgt)
      · simp [insertStable, hgt]

/-- C2 amended. The per-path sequences are kept sorted with respect to the
source comparator, which orders by path ASC then timestamp DESC and treats
equal-signature docs as equal, with no signature tie-break for distinct
signatures; docs tied under the comparator, in particular docs at the same
path with equal timestamps, keep insertion order because the sort is
stable, so when the prior head `e` of the path does not strictly lose to
the accepted incoming doc, `getLatestDocAtPath` still returns `e` (the
first-inserted doc wins a timestamp tie, whatever the signatures); lists at
other paths are untouched. -/
theorem docsByPath_sorted_no_sig_tiebreak (b : Bowl) (d e : Doc) (rest : List Doc)
    (hl : jsGet b.docsByPathNewestFirst d.path = some (e :: rest))
    (hsorted : List.Pairwise
      (fun x y => docComparePathThenNewestFirst x y ≠ Cmp.gt) (e :: rest))
    (hacc : ((b.upsert d).result).isAccepted = true)
    (hne : docComparePathThenNewestFirst d e ≠ Cmp.lt) :
    (b.upsert d).bowl.getLatestDocAtPath d.path = some e ∧
    List.Chain' (fun x y => docComparePathThenNewestFirst x y ≠ Cmp.gt)
      (((b.upsert d).bowl.getAllDocsAtPath d.path).getD []) ∧
    (∀ p, p ≠ d.path →
      (b.upsert d).bowl.getAllDocsAtPath p = b.getAllDocsAtPath p) := by
  have key : ∀ (eo : Option Doc), b.upsert d = b.upsertAccept d eo →
      (b.upsert d).bowl.getLatestDocAtPath d.path = some e ∧
      List.Chain' (fun x y => docComparePathThenNewestFirst x y ≠ Cmp.gt)
        (((b.upsert d).bowl.getAllDocsAtPath d.path).getD []) ∧
      (∀ p, p ≠ d.path →
        (b.upsert d).bowl.getAllDocsAtPath p = b.getAllDocsAtPath p) := by
    intro eo heq
    rw [heq]
    unfold Bowl.getLatestDocAtPath Bowl.getAllDocsAtPath
    rw [upsertAccept_docsByPath b d eo, jsGet_jsSet_self, hl]
    refine ⟨?_, ?_, ?_⟩
    · show (stableSort docComparePathThenNewestFirst
        ((e :: rest) ++ [{ d with _localIndex := some (b.highestLocalIndex + 1) }])).head? =
          some e
      refine stableSort_append_head docCompare_coh hsorted ?_
      exact hne
    · exact chain'_stableSort docCompare_coh _
    · intro p hp
      rw [jsGet_jsSet_ne _ _ hp]
  cases hj : jsGet b.docWithPathAndAuthor (combinePathAndAuthor d) with
  | none => exact key none (upsert_eq_none hj)
  | some ex =>
      cases hc : docCompareForOverwrite d ex with
      | lt => rw [upsert_eq_lt hj hc] at hacc; cases hacc
      | eq => rw [upsert_eq_eq hj hc] at hacc; cases hacc
      | gt => exact key (some ex) (upsert_eq_gt hj hc)

/-- Witness for the amended C2 at the concrete S2 tie: author A upserted
first at /p, author B second with equal timestamp, and the latest doc at /p
is still the doc of author A. -/
theorem docsByPath_sorted_no_sig_tiebreak_witness :
    ((emptyBowl.upsert docPA).bowl.upsert docPB).bowl.getLatestDocAtPath docPB.path =
      some { docPA with _localIndex := some 1 } :=
  (docsByPath_sorted_no_sig_tiebreak (emptyBowl.upsert docPA).bowl docPB
    { docPA with _localIndex := some 1 } [] (by decide) (by decide)
    (by decide) (by decide)).1

/-! Claim C3 (code bug): write ignores the clock when a latest doc exists. -/

/-- A stale doc at /a with timestamp 5. -/
def docQ5 : Doc :=
  ⟨"/a", 5, "@a", "x", "h", 1, "s", none⟩

/-- The bowl holding the stale doc. -/
def bowlQ : Bowl :=
  (emptyBowl.upsert docQ5).bowl

/-- The keypair of author A. -/
def kpA : AuthorKeypair :=
  ⟨"@a", "secret"⟩

/-- The write request of the C3 failing input. -/
def dtwY : DocToWrite :=
  ⟨"/a", "@a", "y"⟩

/-- C3 fails on the code: with the latest doc at /a carrying timestamp 5 and
the clock at 1000 microseconds, write stamps the new doc with timestamp 6
(latest plus one, the clock discarded), not max(1000, 5 + 1) = 1000; the
new timestamp lies below the current clock. -/
theorem write_timestamp_ignores_clock :
    ((bowlQ.write kpA dtwY 1000 "sigY").bowl.getLatestDocAtPath "/a").map
        Doc.timestamp = some 6 ∧
    (6 : Int) < 1000 ∧
    (6 : Int) ≠ max 1000 (5 + 1) := by
  decide

/-! Claim C4 (code bug): three filter fields test the wrong relation. -/

/-- A doc whose path has the filter value as a strict prefix, not suffix. -/
def docF1 : Doc :=
  ⟨"/ab", 5, "@a", "xy", "h", 2, "s", none⟩

/-- A doc whose path has the filter value as a proper suffix. -/
def docF2 : Doc :=
  ⟨"b/a", 5, "@a", "xy", "h", 2, "s", none⟩

/-- C4 fails on the code: `pathEndsWith` is evaluated with startsWith, so a
prefix match passes and a true suffix match fails; and `timestampLt` and
`contentLengthLt` are evaluated with the greater-than test, so docs strictly
below the bound do not match. -/
theorem docMatchesFilter_relations_wrong :
    (docMatchesFilter docF1 { pathEndsWith := some "/a" } = true ∧
      strEndsWith docF1.path "/a" = false) ∧
    (docMatchesFilter docF2 { pathEndsWith := some "/a" } = false ∧
      strEndsWith docF2.path "/a" = true) ∧
    (docMatchesFilter docF1 { timestampLt := some 10 } = false ∧
      docF1.timestamp < 10) ∧
    (docMatchesFilter docF1 { contentLengthLt := some 10 } = false ∧
      docF1.contentLength < 10) := by
  decide

/-! Claim C5 (code bug): the async follower loop never advances. -/

/-- The single doc of the C5 failing input. -/
def docR : Doc :=
  ⟨"/r", 100, "@a", "x", "h", 1, "s", none⟩

/-- A bowl holding one doc with local index 1. -/
def bowlR : Bowl :=
  (emptyBowl.upsert docR).bowl

/-- A running async follower at nextIndex 1. -/
def followerR : Follower :=
  ⟨1, FollowerKind.async, some FollowerState.running⟩

/-- C5 fails on the code: one continueAsyncFollower invocation on a bowl
holding one doc awaits the callback on the doc with local index 1,
reschedules itself, and leaves the follower unchanged (nextIndex still 1,
still running); the next invocation therefore delivers local index 1 again,
so deliveries are not strictly increasing and the follower never reaches
the sleeping state. -/
theorem continueAsyncFollower_never_advances :
    (continueAsyncFollowerStep followerR bowlR).delivered.map
        (fun d => d._localIndex.getD 0) = [1] ∧
    (continueAsyncFollowerStep followerR bowlR).follower = followerR ∧
    (continueAsyncFollowerStep followerR bowlR).reschedules = true ∧
    (continueAsyncFollowerStep
        (continueAsyncFollowerStep followerR bowlR).follower bowlR).delivered.map
        (fun d => d._localIndex.getD 0) = [1] ∧
    (continueAsyncFollowerStep followerR bowlR).follower.state ≠
      some FollowerState.sleeping := by
  decide

/-! Claim C6 counterexample: catch-up does not advance nextIndex. -/

/-- The five docs of scenario S4, written at distinct paths. -/
def docS (i : Nat) : Doc :=
  ⟨"/s" ++ toString i, 100 + i, "@a", "x", "h", 1, "sg" ++ toString i, none⟩

/-- The bowl after the five writes of scenario S4. -/
def bowlS : Bowl :=
  (((((emptyBowl.upsert (docS 1)).bowl.upsert (docS 2)).bowl.upsert
    (docS 3)).bowl.upsert (docS 4)).bowl.upsert (docS 5)).bowl

/-- A sync follower registered with nextIndex 1. -/
def followerS : Follower :=
  ⟨1, FollowerKind.sync, none⟩

/-- C6 fails as stated: registration delivers exactly the five docs with
local indexes 1..5 in order before it returns, but the follower nextIndex
is not advanced as it goes: it is still 1, not 6, when addFollower
returns. -/
theorem addFollower_does_not_advance_nextIndex :
    (bowlS.addFollower followerS).delivered.map (fun d => d._localIndex.getD 0) =
      [1, 2, 3, 4, 5] ∧
    (bowlS.addFollower followerS).follower.nextIndex = 1 ∧
    (bowlS.addFollower followerS).follower.nextIndex ≠ 6 := by
  decide

/-! Claim C6 amended: sync catch-up delivers every stored doc from
nextIndex on, ascending, without touching nextIndex. -/

theorem bowlWf_spec {b : Bowl} (h : bowlWf b = true) :
    (b.docsByPathNewestFirst.map Prod.fst).Nodup ∧
    (∀ pl ∈ b.docsByPathNewestFirst, pl.2 ≠ [] ∧ ∀ d ∈ pl.2, d.path = pl.1) ∧
    (b.docWithLocalIndex.map Prod.fst).Nodup ∧
    (∀ kd ∈ b.docWithLocalIndex,
      kd.2._localIndex = some kd.1 ∧ 1 ≤ kd.1 ∧ kd.1 ≤ b.highestLocalIndex) := by
  unfold bowlWf at h
  simp only [Bool.and_eq_true, decide_eq_true_eq, List.all_eq_true] at h
  obtain ⟨⟨⟨h1, h2⟩, h3⟩, h4⟩ := h
  refine ⟨h1, ?_, h3, ?_⟩
  · intro pl hpl
    have h5 := h2 pl hpl
    unfold pathEntryWf at h5
    simp only [Bool.and_eq_true, decide_eq_true_eq, List.all_eq_true] at h5
    exact ⟨h5.1, h5.2⟩
  · intro kd hkd
    have h5 := h4 kd hkd
    unfold idxEntryWf at h5
    simp only [Bool.and_eq_true, decide_eq_true_eq] at h5
    exact ⟨h5.1.1, h5.1.2, h5.2⟩

theorem delivered_map_pairwise {m : List (Nat × Doc)}
    (hwf : ∀ kd ∈ m, kd.2._localIndex = some kd.1) :
    ∀ {l : List Nat}, List.Pairwise (· < ·) l →
      List.Pairwise (· < ·)
        ((l.filterMap (fun ii => jsGet m ii)).map (fun d => d._localIndex.getD 0)) := by
  intro l hl
  induction l with
  | nil => simp
  | cons ii rest ih =>
      rw [List.pairwise_cons] at hl
      cases hg : jsGet m ii with
      | none => simpa [List.filterMap_cons, hg] using ih hl.2
      | some d =>
          have hidx : d._localIndex = some ii := hwf (ii, d) (jsGet_mem hg)
          simp only [List.filterMap_cons, hg, List.map_cons]
          rw [List.pairwise_cons]
          refine ⟨?_, ih hl.2⟩
          intro y hy
          rcases List.mem_map.mp hy with ⟨d2, hd2, rfl⟩
          rcases List.mem_filterMap.mp hd2 with ⟨jj, hjj, hg2⟩
          have hidx2 : d2._localIndex = some jj := hwf (jj, d2) (jsGet_mem hg2)
          rw [hidx, hidx2]
          simpa using hl.1 jj hjj

/-- C6 amended. Registering a sync follower with nextIndex n on a
well-formed bowl drives the callback, before registration returns, exactly
once per retained document with local index at least n, in strictly
ascending local-index order; but the follower nextIndex is left unchanged
by the catch-up (only a later upsert moves it), and the follower ends in
the sleeping state. In particular with five stored docs and n = 1 the
callback runs exactly five times with local indexes 1..5. -/
theorem addFollower_sync_catchup (b : Bowl) (f : Follower)
    (hwf : bowlWf b = true) (hk : f.kind = FollowerKind.sync) :
    (b.addFollower f).delivered = b.getDocsSinceLocalIndex f.nextIndex none ∧
    List.Pairwise (· < ·)
      ((b.addFollower f).delivered.map (fun d => d._localIndex.getD 0)) ∧
    (∀ kd ∈ b.docWithLocalIndex, f.nextIndex ≤ kd.1 →
      kd.2 ∈ (b.addFollower f).delivered) ∧
    (∀ d ∈ (b.addFollower f).delivered,
      d ∈ b.docWithLocalIndex.map Prod.snd ∧ f.nextIndex ≤ d._localIndex.getD 0) ∧
    (b.addFollower f).follower.nextIndex = f.nextIndex ∧
    (b.addFollower f).follower.state = some FollowerState.sleeping := by
  obtain ⟨_, _, hni, hie⟩ := bowlWf_spec hwf
  have hout : b.addFollower f =
      ⟨b.getDocsSinceLocalIndex f.nextIndex none,
       { f with state := some FollowerState.sleeping },
       { b with followers :=
          b.followers ++ [{ f with state := some FollowerState.sleeping }] }⟩ := by
    unfold Bowl.addFollower
    rw [hk]
  rw [hout]
  refine ⟨rfl, ?_, ?_, ?_, rfl, rfl⟩
  · show List.Pairwise (· < ·)
      ((b.getDocsSinceLocalIndex f.nextIndex none).map (fun d => d._localIndex.getD 0))
    rw [getDocsSinceLocalIndex_none]
    refine delivered_map_pairwise (fun kd hkd => (hie kd hkd).1) ?_
    exact List.pairwise_lt_range' ..
  · intro kd hkd hge
    show kd.2 ∈ b.getDocsSinceLocalIndex f.nextIndex none
    rw [getDocsSinceLocalIndex_none]
    refine List.mem_filterMap.mpr ⟨kd.1, ?_, ?_⟩
    · rw [List.mem_range'_1]
      obtain ⟨_, _, hle⟩ := hie kd hkd
      omega
    · exact jsGet_of_mem (by exact hkd) hni
  · intro d hd
    rw [show (⟨b.getDocsSinceLocalIndex f.nextIndex none,
        { f with state := some FollowerState.sleeping },
        { b with followers :=
           b.followers ++ [{ f with state := some FollowerState.sleeping }] }⟩ :
        AddFollowerOutcome).delivered = b.getDocsSinceLocalIndex f.nextIndex none
      from rfl, getDocsSinceLocalIndex_none] at hd
    rcases List.mem_filterMap.mp hd with ⟨ii, hii, hg⟩
    have hmem := jsGet_mem hg
    have hidx := (hie (ii, d) hmem).1
    rw [List.mem_range'_1] at hii
    refine ⟨List.mem_map.mpr ⟨(ii, d), hmem, rfl⟩, ?_⟩
    rw [hidx]
    simpa using hii.1

/-- Witness for the amended C6 at the concrete S4 scenario: the five-doc
bowl and a sync follower with nextIndex 1. -/
theorem addFollower_sync_catchup_witness :
    (bowlS.addFollower followerS).delivered =
      bowlS.getDocsSinceLocalIndex followerS.nextIndex none ∧
    (bowlS.addFollower followerS).follower.nextIndex = followerS.nextIndex := by
  have h := addFollower_sync_catchup bowlS followerS (by decide) (by decide)
  exact ⟨h.1, h.2.2.2.2.1⟩

/-! Claim C9: queryPaths is the sorted deduplicated path projection of
queryDocs. -/

theorem queryDocsLoop_passthrough (q : Query) (hA : ∀ d, startAtSkips q d = false)
    (hF : q.filter = none) (hL : q.limit = none) :
    ∀ l acc : List Doc, queryDocsLoop q l acc = acc ++ l := by
  intro l
  induction l with
  | nil => intro acc; simp [queryDocsLoop]
  | cons d rest ih =>
      intro acc
      simp only [queryDocsLoop, hA d, hF, hL, Bool.false_eq_true, if_false, ih]
      simp

theorem getLatestDocs_false (b : Bowl) :
    b.getLatestDocs false = b.docsByPathNewestFirst.filterMap (fun pl => pl.2.head?) :=
  rfl

theorem queryDocs_default_eq (b : Bowl) (q : Option Query)
    (hq : mergeQuery (q.getD {}) = defaultQuery) :
    b.queryDocs q = stableSort docComparePathThenNewestFirst (b.getLatestDocs false) := by
  unfold Bowl.queryDocs
  rw [hq]
  show queryDocsLoop defaultQuery
      (stableSort docComparePathThenNewestFirst (b.getLatestDocs false)) [] =
    stableSort docComparePathThenNewestFirst (b.getLatestDocs false)
  rw [queryDocsLoop_passthrough defaultQuery (fun d => rfl) rfl rfl]
  rfl

theorem map_path_filterMap_head {l : List (String × List Doc)}
    (h : ∀ pl ∈ l, pl.2 ≠ [] ∧ ∀ d ∈ pl.2, d.path = pl.1) :
    (l.filterMap (fun pl => pl.2.head?)).map Doc.path = l.map Prod.fst := by
  induction l with
  | nil => rfl
  | cons pl rest ih =>
      obtain ⟨p, dl⟩ := pl
      obtain ⟨hne, hall⟩ := h (p, dl) (List.mem_cons_self _ _)
      have ihr := ih (fun pl2 hpl2 => h pl2 (List.mem_cons_of_mem _ hpl2))
      cases dl with
      | nil => exact absurd rfl hne
      | cons d0 ds =>
          simp only [List.filterMap_cons, List.head?_cons, List.map_cons]
          rw [ihr]
          exact congrArg (fun s => s :: rest.map Prod.fst)
            (hall d0 (List.mem_cons_self _ _))

/-- C9. For every well-formed bowl and every query (also no query at all),
queryPaths equals the sorted deduplicated list of the paths of the
documents queryDocs returns, ascending, reversed exactly when the provided
query orders by path DESC. -/
theorem queryPaths_eq_spec (b : Bowl) (hwf : bowlWf b = true) (q : Option Query) :
    b.queryPaths q = queryPathsSpec b q := by
  obtain ⟨hnp, hpe, _, _⟩ := bowlWf_spec hwf
  have hkeys : ∀ qq : Option Query, mergeQuery (qq.getD {}) = defaultQuery →
      sortStrings (b.docsByPathNewestFirst.map Prod.fst) =
        sortStrings (jsSetDedup ((b.queryDocs qq).map Doc.path)) := by
    intro qq hqq
    rw [queryDocs_default_eq b qq hqq]
    have hperm : List.Perm
        ((stableSort docComparePathThenNewestFirst (b.getLatestDocs false)).map Doc.path)
        (b.docsByPathNewestFirst.map Prod.fst) := by
      have h1 := (stableSort_perm docComparePathThenNewestFirst
        (b.getLatestDocs false)).map Doc.path
      rw [getLatestDocs_false] at h1
      rw [map_path_filterMap_head hpe] at h1
      rw [getLatestDocs_false]
      exact h1
    have hnd : ((stableSort docComparePathThenNewestFirst
        (b.getLatestDocs false)).map Doc.path).Nodup :=
      hperm.nodup_iff.mpr hnp
    rw [jsSetDedup_eq_self hnd]
    exact (sortStrings_congr_perm hperm).symm
  cases q with
  | none => exact hkeys none rfl
  | some qq =>
      by_cases hq : qq = ({} : Query)
      · subst hq
        exact hkeys (some {}) rfl
      · unfold Bowl.queryPaths queryPathsSpec
        simp only [if_neg hq]
        rfl

/-- Witness for C9 at the concrete five-doc bowl, for a path DESC query and
for no query at all. -/
theorem queryPaths_eq_spec_witness :
    bowlS.queryPaths (some { orderBy := some OrderByKind.pathDESC }) =
      queryPathsSpec bowlS (some { orderBy := some OrderByKind.pathDESC }) ∧
    bowlS.queryPaths none = queryPathsSpec bowlS none :=
  ⟨queryPaths_eq_spec bowlS (by decide) (some { orderBy := some OrderByKind.pathDESC }),
   queryPaths_eq_spec bowlS (by decide) none⟩

/-! The well-formedness predicate holds on every bowl reachable by upserts,
so the hypotheses of the theorems above cover all states the code can
build. -/

theorem jsSet_mem {α β : Type} [DecidableEq α] {m : List (α × β)} {k : α} {v : β}
    {e : α × β} (h : e ∈ jsSet m k v) : e ∈ m ∨ e = (k, v) := by
  induction m with
  | nil => simpa [jsSet] using h
  | cons kv rest ih =>
      obtain ⟨k1, v1⟩ := kv
      by_cases hk : k1 = k
      · simp only [jsSet, if_pos hk] at h
        rcases List.mem_cons.mp h with h | h
        · right; exact h
        · left; exact List.mem_cons_of_mem _ h
      · simp only [jsSet, if_neg hk] at h
        rcases List.mem_cons.mp h with h | h
        · left; rw [h]; exact List.mem_cons_self _ _
        · rcases ih h with h | h
          · left; exact List.mem_cons_of_mem _ h
          · right; exact h

theorem jsSet_map_fst {α β : Type} [DecidableEq α] (m : List (α × β)) (k : α) (v : β) :
    (jsSet m k v).map Prod.fst =
      if k ∈ m.map Prod.fst then m.map Prod.fst else m.map Prod.fst ++ [k] := by
  induction m with
  | nil => simp [jsSet]
  | cons kv rest ih =>
      obtain ⟨k1, v1⟩ := kv
      by_cases hk : k1 = k
      · subst hk
        simp [jsSet]
      · have hne : ¬ k = k1 := fun he => hk he.symm
        simp only [jsSet, if_neg hk, List.map_cons, List.mem_cons, ih]
        by_cases hin : k ∈ rest.map Prod.fst
        · simp [hin, hne]
        · simp [hin, hne]

theorem jsSet_map_fst_nodup {α β : Type} [DecidableEq α] {m : List (α × β)} (k : α)
    (v : β) (h : (m.map Prod.fst).Nodup) : ((jsSet m k v).map Prod.fst).Nodup := by
  rw [jsSet_map_fst]
  by_cases hin : k ∈ m.map Prod.fst
  · rw [if_pos hin]; exact h
  · rw [if_neg hin]
    rw [List.nodup_append]
    exact ⟨h, List.nodup_singleton k, by simpa using fun hk => hin hk⟩

theorem bowlWf_intro {b : Bowl}
    (h1 : (b.docsByPathNewestFirst.map Prod.fst).Nodup)
    (h2 : ∀ pl ∈ b.docsByPathNewestFirst, pl.2 ≠ [] ∧ ∀ d ∈ pl.2, d.path = pl.1)
    (h3 : (b.docWithLocalIndex.map Prod.fst).Nodup)
    (h4 : ∀ kd ∈ b.docWithLocalIndex,
      kd.2._localIndex = some kd.1 ∧ 1 ≤ kd.1 ∧ kd.1 ≤ b.highestLocalIndex) :
    bowlWf b = true := by
  unfold bowlWf
  simp only [Bool.and_eq_true, decide_eq_true_eq, List.all_eq_true]
  refine ⟨⟨⟨h1, ?_⟩, h3⟩, ?_⟩
  · intro pl hpl
    unfold pathEntryWf
    simp only [Bool.and_eq_true, decide_eq_true_eq, List.all_eq_true]
    exact h2 pl hpl
  · intro kd hkd
    unfold idxEntryWf
    simp only [Bool.and_eq_true, decide_eq_true_eq]
    obtain ⟨ha, hb, hc⟩ := h4 kd hkd
    exact ⟨⟨ha, hb⟩, hc⟩

theorem bowlWf_emptyBowl : bowlWf emptyBowl = true := by
  decide

theorem bowlWf_upsert {b : Bowl} (d : Doc) (hwf : bowlWf b = true) :
    bowlWf (b.upsert d).bowl = true := by
  cases hacc : ((b.upsert d).result).isAccepted with
  | false => rw [(upsert_not_accepted_frame hacc).1]; exact hwf
  | true =>
      obtain ⟨hnp, hpe, hni, hie⟩ := bowlWf_spec hwf
      have key : ∀ (eo : Option Doc), b.upsert d = b.upsertAccept d eo →
          bowlWf (b.upsert d).bowl = true := by
        intro eo heq
        rw [heq]
        apply bowlWf_intro
        · rw [upsertAccept_docsByPath b d eo]
          exact jsSet_map_fst_nodup _ _ hnp
        · rw [upsertAccept_docsByPath b d eo]
          intro pl hpl
          rcases jsSet_mem hpl with h | h
          · exact hpe pl h
          · subst h
            dsimp only
            constructor
            · intro hemp
              have hlen := (stableSort_perm docComparePathThenNewestFirst
                (((jsGet b.docsByPathNewestFirst d.path).getD []) ++
                  [{ d with _localIndex := some (b.highestLocalIndex + 1) }])).length_eq
              rw [hemp] at hlen
              simp at hlen
            · intro d2 hd2
              have hmem := (stableSort_perm docComparePathThenNewestFirst
                (((jsGet b.docsByPathNewestFirst d.path).getD []) ++
                  [{ d with _localIndex := some (b.highestLocalIndex + 1) }])).mem_iff.mp hd2
              rcases List.mem_append.mp hmem with h | h
              · cases hg : jsGet b.docsByPathNewestFirst d.path with
                | none => rw [hg] at h; simp at h
                | some l0 =>
                    rw [hg] at h
                    exact (hpe (d.path, l0) (jsGet_mem hg)).2 d2 h
              · rw [List.mem_singleton] at h
                subst h
                rfl
        · rw [upsertAccept_docWithLocalIndex b d eo]
          exact jsSet_map_fst_nodup _ _ hni
        · rw [upsertAccept_docWithLocalIndex b d eo, upsertAccept_highest b d eo]
          intro kd hkd
          rcases jsSet_mem hkd with h | h
          · obtain ⟨ha, hb, hc⟩ := hie kd h
            exact ⟨ha, hb, Nat.le_succ_of_le hc⟩
          · subst h
            exact ⟨rfl, Nat.succ_le_succ (Nat.zero_le _), Nat.le_refl _⟩
      cases hj : jsGet b.docWithPathAndAuthor (combinePathAndAuthor d) with
      | none => exact key none (upsert_eq_none hj)
      | some ex =>
          cases hc : docCompareForOverwrite d ex with
          | lt => rw [upsert_eq_lt hj hc] at hacc; cases hacc
          | eq => rw [upsert_eq_eq hj hc] at hacc; cases hacc
          | gt => exact key (some ex) (upsert_eq_gt hj hc)

/-- Every bowl built by a sequence of upserts from the empty bowl satisfies
the well-formedness predicate the theorems above assume. -/
theorem bowlWf_applyUpserts (ds : List Doc) :
    bowlWf (applyUpserts emptyBowl ds) = true := by
  suffices h : ∀ (b : Bowl), bowlWf b = true → bowlWf (applyUpserts b ds) = true from
    h emptyBowl bowlWf_emptyBowl
  induction ds with
  | nil => exact fun b hb => hb
  | cons d rest ih => exact fun b hb => ih (b.upsert d).bowl (bowlWf_upsert d hb)

end Soup
